import Mathlib

/-!
Verification of the redox-ecc curve/point/scalar core.

The prime-field engine (`Fp`/`FpElt`), the macros `do_if_eq!`,
`impl_binary_op!`/`impl_unary_op!` and the point modules are external
collaborators of the excerpted sources; following the specification they
are modelled as follows:

* a field element over modulus `p` is a `ZMod p` value, with the field
  operations of `ZMod p` (`sqrt` and `sgn0` stay abstract parameters,
  since the specification leaves them underdetermined);
* `do_if_eq!(cond, v, err)` (the assertion-style constructor guard) is
  modelled as `Option`: `some v` when the condition holds, `none` when
  the construction fails;
* the binary-operation macro checks that both scalars carry the same
  modulus and fails with `GroupMismatch` otherwise;
* a Rust panic reached inside `decode` (an out-of-range slice index) is
  modelled as the distinguished error `DecodeError.panicOutOfRange`.

Byte buffers are `List ℕ`, each entry one byte; machine `usize`
arithmetic inside the bit iterator is taken modulo `2 ^ 64`.
-/

/-- Modelled from the spec: the field contract's `size_bytes()` is
`⌈log256 p⌉` (the field module is not part of the excerpted sources).
Fuel-based so that it computes by kernel reduction. -/
def sizeBytesAux : ℕ → ℕ → ℕ
  | 0, _ => 0
  | fuel + 1, n => if n ≤ 1 then 0 else sizeBytesAux fuel ((n + 255) / 256) + 1

/-- Byte length of a field element for modulus `p`. -/
def sizeBytes (p : ℕ) : ℕ := sizeBytesAux p p

/-- Big-endian interpretation of a byte list, as in `BigInt::from_bytes_be`. -/
def bytesToNat (bs : List ℕ) : ℕ := bs.foldl (fun acc b => 256 * acc + b) 0

/-- Reading a boolean list as a binary numeral, most significant bit first. -/
def bitsToNat (bs : List Bool) : ℕ := bs.foldl (fun acc b => 2 * acc + (if b then 1 else 0)) 0

/-- The little-endian base `2 ^ 32` digits of a natural number
(`BigInt::to_u32_digits` on the magnitude), fuel-based. -/
def u32DigitsAux : ℕ → ℕ → List ℕ
  | 0, _ => []
  | fuel + 1, n => if n = 0 then [] else n % 2 ^ 32 :: u32DigitsAux fuel (n / 2 ^ 32)

/-- The `u32` digit vector of a natural number, little-endian. -/
def u32Digits (n : ℕ) : List ℕ := u32DigitsAux n n

/-- Bit length of a natural number (`BigInt::bits`), fuel-based. -/
def bitsLenAux : ℕ → ℕ → ℕ
  | 0, _ => 0
  | fuel + 1, n => if n = 0 then 0 else bitsLenAux fuel (n / 2) + 1

/-- Bit length of a natural number: `0` for `0`, else `⌊log2 n⌋ + 1`. -/
def bitsLen (n : ℕ) : ℕ := bitsLenAux n n

/-- The range of Rust's `usize` arithmetic. -/
def USIZE : ℕ := 2 ^ 64

/-- Errors surfaced by `decode` and the point constructors.  The sources
return `std::io::Error` values with distinct messages; the specification
names the kinds `InvalidLength`, `InvalidCoordinate`, `InvalidTag`,
`InvalidPoint`.  `panicOutOfRange` marks a Rust panic (out-of-range slice
index), which is not a recoverable error value in the sources. -/
inductive DecodeError where
  | invalidLength
  | invalidCoordinate
  | invalidTag
  | invalidPoint
  | panicOutOfRange
  deriving DecidableEq

/-- Error of a scalar binary operation on incompatible operands. -/
inductive ScalarError where
  | groupMismatch
  deriving DecidableEq

namespace Montgomery

/-- Montgomery curve `b·y² = x³ + a·x² + x` over the field of modulus `p`
(struct `montgomery::curve::Curve`; the field `f` is the type parameter). -/
structure Curve (p : ℕ) where
  a : ZMod p
  b : ZMod p
  s : ZMod p
  r : ℕ
  gx : ZMod p
  gy : ZMod p
  h : ℕ
  deriving DecidableEq

/-- Projective coordinates (struct `montgomery::point::ProyCoordinates`). -/
structure ProyCoordinates (p : ℕ) where
  x : ZMod p
  y : ZMod p
  z : ZMod p
  deriving DecidableEq

/-- A point: its owning curve plus coordinates (struct `montgomery::point::Point`). -/
structure Point (p : ℕ) where
  e : Curve p
  c : ProyCoordinates p
  deriving DecidableEq

variable {p : ℕ}

/-- `is_on_curve` from `montgomery/curve.rs`: checks `b·y²·z - x·(x² + a·x·z + z²) = 0`. -/
def Curve.is_on_curve (E : Curve p) (pt : Point p) : Bool :=
  let c := pt.c
  let l := E.b * c.y ^ 2 * c.z
  let r := c.x * (c.x ^ 2 + E.a * c.x * c.z + c.z ^ 2)
  decide (l - r = 0)

/-- `new_proy_point`: wraps coordinates and validates membership
(`do_if_eq!` modelled as `Option`). -/
def Curve.new_proy_point (E : Curve p) (c : ProyCoordinates p) : Option (Point p) :=
  let pt : Point p := { e := E, c := c }
  if E.is_on_curve pt then some pt else none

/-- `new_point` of the `EllipticCurve` impl: affine input, `z = 1`, validated. -/
def Curve.new_point (E : Curve p) (x y : ZMod p) : Option (Point p) :=
  let pt : Point p := { e := E, c := { x := x, y := y, z := 1 } }
  if E.is_on_curve pt then some pt else none

/-- `identity`: the point `(0 : 1 : 0)`, built through `new_proy_point`. -/
def Curve.identity (E : Curve p) : Option (Point p) :=
  E.new_proy_point { x := 0, y := 1, z := 0 }

/-- `get_generator`: the point `(gx : gy : 1)`, built through `new_proy_point`. -/
def Curve.get_generator (E : Curve p) : Option (Point p) :=
  E.new_proy_point { x := E.gx, y := E.gy, z := 1 }

/-- Structural equality of curve values, as generated by `#[derive(PartialEq)]`:
every stored component is compared (the shared field is the type parameter). -/
def Curve.beq (E1 E2 : Curve p) : Bool :=
  decide (E1.a = E2.a) && decide (E1.b = E2.b) && decide (E1.s = E2.s) &&
  decide (E1.r = E2.r) && decide (E1.gx = E2.gx) && decide (E1.gy = E2.gy) &&
  decide (E1.h = E2.h)

/-- `decode` from `montgomery/curve.rs`.  `sq` and `sg` are the field
collaborator's `sqrt` and `sgn0` (abstract, per the specification).  The
Rust source slices `buf[1..size+1]` before branching on the tag; when the
buffer is shorter than `size + 1` bytes that slice panics, modelled by
`DecodeError.panicOutOfRange`. -/
def Curve.decode (E : Curve p) (sq : ZMod p → ZMod p) (sg : ZMod p → ℕ)
    (buf : List ℕ) : Except DecodeError (Point p) :=
  let size := sizeBytes p
  let blen := buf.length
  if ¬(blen = 1 ∨ blen = size + 1 ∨ blen = 2 * size + 1) then
    .error .invalidLength
  else
    let tag := buf.headD 0
    if blen < size + 1 then .error .panicOutOfRange
    else
      let x_val := bytesToNat ((buf.drop 1).take size)
      if p ≤ x_val then .error .invalidCoordinate
      else if tag = 0 then
        if blen ≠ 1 then .error .invalidLength
        else match E.identity with
          | some pt => .ok pt
          | none => .error .invalidPoint
      else if tag = 4 then
        if blen ≠ 2 * size + 1 then .error .invalidLength
        else
          let x : ZMod p := (x_val : ZMod p)
          let y_val := bytesToNat (buf.drop (size + 1))
          if p ≤ y_val then .error .invalidCoordinate
          else match E.new_point x ((y_val : ZMod p)) with
            | some pt => .ok pt
            | none => .error .invalidPoint
      else if tag = 2 ∨ tag = 3 then
        if blen ≠ size + 1 then .error .invalidLength
        else
          let one : ZMod p := 1
          let x : ZMod p := (x_val : ZMod p)
          let x_a := x + E.a
          let xx_ax := x_a * x
          let xx_ax_1 := xx_ax + one
          let byy := xx_ax_1 * x
          let b_inv := one * E.b⁻¹
          let yy := byy * b_inv
          let y_sqrt := sq yy
          let sgn := sg y_sqrt
          let deser_tag := ((sgn >>> 1) &&& 1) + 2
          let y := if tag ≠ deser_tag then -y_sqrt else y_sqrt
          match E.new_point x y with
            | some pt => .ok pt
            | none => .error .invalidPoint
      else .error .invalidTag

/-- Scalar from `montgomery/scalar.rs`: an integer `k` with modulus `r`
(both stored as `BigInt`, hence `ℤ`). -/
structure Scalar where
  k : ℤ
  r : ℤ
  deriving DecidableEq

/-- `Scalar::new`: floored reduction of `k` modulo the group order `r`
(a `BigUint`, hence taken from `ℕ`); `mod_floor` is `Int.fmod`. -/
def Scalar.new (k : ℤ) (r : ℕ) : Scalar :=
  { k := Int.fmod k (r : ℤ), r := (r : ℤ) }

/-- `red`: reduce a candidate value by the scalar's own modulus. -/
def Scalar.red (a : Scalar) (k : ℤ) : Scalar :=
  { k := Int.fmod k a.r, r := a.r }

/-- `neg_mod`. -/
def Scalar.neg_mod (a : Scalar) : Scalar := a.red (-a.k)

/-- `add_mod`. -/
def Scalar.add_mod (a b : Scalar) : Scalar := a.red (a.k + b.k)

/-- `sub_mod`. -/
def Scalar.sub_mod (a b : Scalar) : Scalar := a.red (a.k - b.k)

/-- `mul_mod`. -/
def Scalar.mul_mod (a b : Scalar) : Scalar := a.red (a.k * b.k)

/-- Modelled from the spec: `impl_binary_op!` (macro source not in the
excerpt) guards a binary operation with a modulus-equality check and
fails with `GroupMismatch` on incompatible operands.  Addition. -/
def Scalar.add (a b : Scalar) : Except ScalarError Scalar :=
  if a.r = b.r then .ok (a.add_mod b) else .error .groupMismatch

/-- Subtraction, with the same `GroupMismatch` guard. -/
def Scalar.sub (a b : Scalar) : Except ScalarError Scalar :=
  if a.r = b.r then .ok (a.sub_mod b) else .error .groupMismatch

/-- Multiplication, with the same `GroupMismatch` guard. -/
def Scalar.mul (a b : Scalar) : Except ScalarError Scalar :=
  if a.r = b.r then .ok (a.mul_mod b) else .error .groupMismatch

/-- `impl_unary_op!` for negation: no compatibility check to make. -/
def Scalar.neg (a : Scalar) : Scalar := a.neg_mod

/-- `PartialEq` for `Scalar` from the source:
`(self.r == other.r) && (self.k == other.k)`. -/
def Scalar.eq (a b : Scalar) : Bool :=
  decide (a.r = b.r) && decide (a.k = b.k)

/-- The bit cursor backing both scalar bit iterators (struct `Iterino`). -/
structure Iterino where
  l : ℕ
  i : ℕ
  v : List ℕ
  is_lr : Bool

/-- `Iterino::next`: while `i < l`, emit bit `i` of the digit vector and
step `i` down (wrapping `usize` subtraction) or up.  The Rust source
indexes `v[i / 32]`, which is always in range for the states reachable
from `iter_lr`/`iter_rl`; `getD` supplies the (unreachable) default. -/
def Iterino.next (it : Iterino) : Option (Bool × Iterino) :=
  if it.i < it.l then
    let digit := it.v.getD (it.i / 32) 0
    let b := decide ((digit >>> (it.i % 32)) &&& 1 ≠ 0)
    let i' := cond it.is_lr ((it.i + (USIZE - 1)) % USIZE) (it.i + 1)
    some (b, { it with i := i' })
  else none

/-- Drain the iterator into a list, with enough fuel to reach exhaustion. -/
def Iterino.drain : ℕ → Iterino → List Bool
  | 0, _ => []
  | fuel + 1, it =>
    match it.next with
    | none => []
    | some (b, it') => b :: Iterino.drain fuel it'

/-- `iter_lr`: most-significant bit first.  The source sets `i = l - 1`
with `usize` arithmetic (wrapping for `l = 0`). -/
def Scalar.iter_lr (a : Scalar) : List Bool :=
  let n := a.k.natAbs
  let l := bitsLen n
  let i := (l + (USIZE - 1)) % USIZE
  Iterino.drain (l + 1) { l := l, i := i, v := u32Digits n, is_lr := true }

/-- `iter_rl`: least-significant bit first, starting at `i = 0`. -/
def Scalar.iter_rl (a : Scalar) : List Bool :=
  let n := a.k.natAbs
  let l := bitsLen n
  Iterino.drain (l + 1) { l := l, i := 0, v := u32Digits n, is_lr := false }

end Montgomery

namespace Weierstrass

/-- Weierstrass curve `y² = x³ + a·x + b` over the field of modulus `p`
(struct `weierstrass::curve::Curve`). -/
structure Curve (p : ℕ) where
  a : ZMod p
  b : ZMod p
  r : ℕ
  gx : ZMod p
  gy : ZMod p
  h : ℕ
  deriving DecidableEq

/-- Projective coordinates (struct `weierstrass::point::ProyCoordinates`). -/
structure ProyCoordinates (p : ℕ) where
  x : ZMod p
  y : ZMod p
  z : ZMod p
  deriving DecidableEq

/-- A point: its owning curve plus coordinates (struct `weierstrass::point::Point`). -/
structure Point (p : ℕ) where
  e : Curve p
  c : ProyCoordinates p
  deriving DecidableEq

variable {p : ℕ}

/-- `is_on_curve` from `weierstrass/curve.rs`:
checks `x·x² + z·(z·(a·x + b·z) - y²) = 0`. -/
def Curve.is_on_curve (E : Curve p) (pt : Point p) : Bool :=
  let c := pt.c
  let x3 := c.x * c.x ^ 2
  let bz := E.b * c.z
  let ax := E.a * c.x
  let zz := c.z * (ax + bz)
  let zy := c.z * (zz - c.y ^ 2)
  let eq := x3 + zy
  decide (eq = 0)

/-- `new_point`: wraps coordinates and validates membership
(`do_if_eq!` modelled as `Option`). -/
def Curve.new_point (E : Curve p) (c : ProyCoordinates p) : Option (Point p) :=
  let pt : Point p := { e := E, c := c }
  if E.is_on_curve pt then some pt else none

/-- `identity`: the point `(0 : 1 : 0)`, built through `new_point`. -/
def Curve.identity (E : Curve p) : Option (Point p) :=
  E.new_point { x := 0, y := 1, z := 0 }

/-- `get_generator`: the point `(gx : gy : 1)`, built through `new_point`. -/
def Curve.get_generator (E : Curve p) : Option (Point p) :=
  E.new_point { x := E.gx, y := E.gy, z := 1 }

/-- Structural equality of curve values, as generated by `#[derive(PartialEq)]`. -/
def Curve.beq (E1 E2 : Curve p) : Bool :=
  decide (E1.a = E2.a) && decide (E1.b = E2.b) && decide (E1.r = E2.r) &&
  decide (E1.gx = E2.gx) && decide (E1.gy = E2.gy) && decide (E1.h = E2.h)

end Weierstrass

namespace Montgomery

/-- The compressed-decode branch as the specification words it: recompute
`y²` as `(x³ + a·x² + x)·b⁻¹`, take a square root, derive the sign bit
from `sgn0` of the root, negate the root when the tag's encoded sign bit
disagrees, and construct the point through `new_point`.  Stated for
comparison against `Curve.decode`. -/
def decodeCompressedSpec {p : ℕ} (E : Curve p) (sq : ZMod p → ZMod p)
    (sg : ZMod p → ℕ) (buf : List ℕ) : Except DecodeError (Point p) :=
  let size := sizeBytes p
  let tag := buf.headD 0
  let x : ZMod p := (bytesToNat ((buf.drop 1).take size) : ZMod p)
  let yy := (x ^ 3 + E.a * x ^ 2 + x) * E.b⁻¹
  let root := sq yy
  let sbit := (sg root >>> 1) &&& 1
  let y := if tag &&& 1 ≠ sbit then -root else root
  match E.new_point x y with
  | some pt => .ok pt
  | none => .error .invalidPoint

end Montgomery

/-- A small concrete Montgomery curve over `GF(13)`: `7·y² = x³ + 6·x² + x`,
with the on-curve point `(1, 4)` as generator; used to instantiate
hypotheses of the general theorems at explicit inputs. -/
def mc13 : Montgomery.Curve 13 :=
  { a := 6, b := 7, s := 0, r := 11, gx := 1, gy := 4, h := 1 }

/-- A concrete square-root function for `GF(13)` adequate for the inputs
exercised below (`3 = 4²`). -/
def sq13 : ZMod 13 → ZMod 13 := fun z => if z = 3 then 4 else 0

/-- A concrete `sgn0` for `GF(13)`: the canonical representative itself
(its bit 1 is the sign the decoder extracts). -/
def sg13 : ZMod 13 → ℕ := fun z => z.val

/-- The value `v` is the canonical residue of `orig` modulo `m`:
in range `[0, m)` and congruent to `orig`. -/
def reducedFrom (v m orig : ℤ) : Prop := 0 ≤ v ∧ v < m ∧ v ≡ orig [ZMOD m]

/-- Floored reduction by a positive modulus lands in `[0, m)` and preserves
the residue class. -/
theorem fmod_reducedFrom (x m : ℤ) (hm : 0 < m) : reducedFrom (Int.fmod x m) m x := by
  refine ⟨Int.fmod_nonneg' x hm, Int.fmod_lt_of_pos x hm, ?_⟩
  show Int.fmod x m % m = x % m
  rw [Int.fmod_eq_emod x (le_of_lt hm)]
  exact Int.emod_emod_of_dvd x dvd_rfl

/-- C3: the Montgomery membership test accepts exactly the solutions of
`b·Y²·Z = X³ + a·X²·Z + X·Z²`, and the Weierstrass membership test accepts
exactly the solutions of `Y²·Z = X³ + a·X·Z² + b·Z³`, over the curve's field. -/
theorem c3_is_on_curve_iff_equation :
    (∀ (p : ℕ) (E : Montgomery.Curve p) (pt : Montgomery.Point p),
      E.is_on_curve pt = true ↔
        E.b * pt.c.y ^ 2 * pt.c.z =
          pt.c.x ^ 3 + E.a * pt.c.x ^ 2 * pt.c.z + pt.c.x * pt.c.z ^ 2) ∧
    (∀ (p : ℕ) (E : Weierstrass.Curve p) (pt : Weierstrass.Point p),
      E.is_on_curve pt = true ↔
        pt.c.y ^ 2 * pt.c.z =
          pt.c.x ^ 3 + E.a * pt.c.x * pt.c.z ^ 2 + E.b * pt.c.z ^ 3) := by
  constructor
  · intro p E pt
    unfold Montgomery.Curve.is_on_curve
    rw [decide_eq_true_iff, sub_eq_zero]
    constructor
    · intro h1; linear_combination h1
    · intro h1; linear_combination h1
  · intro p E pt
    unfold Weierstrass.Curve.is_on_curve
    rw [decide_eq_true_iff]
    constructor
    · intro h1; linear_combination -h1
    · intro h1; linear_combination -h1

/-- C2: every point a constructor returns satisfies the owning curve's
equation — `new_proy_point`, `new_point`, `identity` and `get_generator`
either produce an on-curve point or fail outright, in both models. -/
theorem c2_constructors_only_emit_on_curve_points :
    (∀ (p : ℕ) (E : Montgomery.Curve p) (c : Montgomery.ProyCoordinates p),
      (E.new_proy_point c).all (fun pt => E.is_on_curve pt) = true) ∧
    (∀ (p : ℕ) (E : Montgomery.Curve p) (x y : ZMod p),
      (E.new_point x y).all (fun pt => E.is_on_curve pt) = true) ∧
    (∀ (p : ℕ) (E : Montgomery.Curve p),
      (E.identity).all (fun pt => E.is_on_curve pt) = true) ∧
    (∀ (p : ℕ) (E : Montgomery.Curve p),
      (E.get_generator).all (fun pt => E.is_on_curve pt) = true) ∧
    (∀ (p : ℕ) (E : Weierstrass.Curve p) (c : Weierstrass.ProyCoordinates p),
      (E.new_point c).all (fun pt => E.is_on_curve pt) = true) ∧
    (∀ (p : ℕ) (E : Weierstrass.Curve p),
      (E.identity).all (fun pt => E.is_on_curve pt) = true) ∧
    (∀ (p : ℕ) (E : Weierstrass.Curve p),
      (E.get_generator).all (fun pt => E.is_on_curve pt) = true) := by
  have hm : ∀ (p : ℕ) (E : Montgomery.Curve p) (c : Montgomery.ProyCoordinates p),
      (E.new_proy_point c).all (fun pt => E.is_on_curve pt) = true := by
    intro p E c
    unfold Montgomery.Curve.new_proy_point
    by_cases h1 : E.is_on_curve { e := E, c := c } <;> simp [h1]
  have hw : ∀ (p : ℕ) (E : Weierstrass.Curve p) (c : Weierstrass.ProyCoordinates p),
      (E.new_point c).all (fun pt => E.is_on_curve pt) = true := by
    intro p E c
    unfold Weierstrass.Curve.new_point
    by_cases h1 : E.is_on_curve { e := E, c := c } <;> simp [h1]
  refine ⟨hm, ?_, ?_, ?_, hw, ?_, ?_⟩
  · intro p E x y
    unfold Montgomery.Curve.new_point
    by_cases h1 : E.is_on_curve { e := E, c := { x := x, y := y, z := 1 } } <;> simp [h1]
  · intro p E; exact hm p E _
  · intro p E; exact hm p E _
  · intro p E; exact hw p E _
  · intro p E; exact hw p E _

/-- C10: two scalars compare equal exactly when both the value `k` and the
modulus `r` agree; equal values under different group orders are unequal. -/
theorem c10_scalar_eq_iff (a b : Montgomery.Scalar) :
    Montgomery.Scalar.eq a b = true ↔ (a.k = b.k ∧ a.r = b.r) := by
  unfold Montgomery.Scalar.eq
  rw [Bool.and_eq_true, decide_eq_true_iff, decide_eq_true_iff]
  exact and_comm

/-- C7: each binary scalar operation on operands with different moduli
fails with `GroupMismatch` and yields no result. -/
theorem c7_binary_ops_group_mismatch (a b : Montgomery.Scalar) (hne : a.r ≠ b.r) :
    a.add b = .error .groupMismatch ∧
    a.sub b = .error .groupMismatch ∧
    a.mul b = .error .groupMismatch := by
  unfold Montgomery.Scalar.add Montgomery.Scalar.sub Montgomery.Scalar.mul
  rw [if_neg hne, if_neg hne, if_neg hne]
  exact ⟨rfl, rfl, rfl⟩

/-- Witness for C7 at concrete scalars `(2 mod 5)` and `(2 mod 7)`. -/
theorem c7_binary_ops_group_mismatch_witness :
    (({ k := 2, r := 5 } : Montgomery.Scalar).r ≠
      ({ k := 2, r := 7 } : Montgomery.Scalar).r) ∧
    (Montgomery.Scalar.add { k := 2, r := 5 } { k := 2, r := 7 } =
      .error .groupMismatch ∧
     Montgomery.Scalar.sub { k := 2, r := 5 } { k := 2, r := 7 } =
      .error .groupMismatch ∧
     Montgomery.Scalar.mul { k := 2, r := 5 } { k := 2, r := 7 } =
      .error .groupMismatch) :=
  ⟨by decide, c7_binary_ops_group_mismatch { k := 2, r := 5 } { k := 2, r := 7 } (by decide)⟩

/-- C9 counterexample: two Montgomery curves over the same field `GF(5)`
with identical coefficients `a`, `b` (and `s`) but different stored order
`r` are unequal under the derived structural equality, contradicting the
claim that curve equality depends only on the field and the coefficients. -/
theorem c9_counterexample_order_breaks_equality :
    Montgomery.Curve.beq
        ({ a := 1, b := 2, s := 0, r := 7, gx := 0, gy := 1, h := 1 } : Montgomery.Curve 5)
        ({ a := 1, b := 2, s := 0, r := 11, gx := 0, gy := 1, h := 1 } : Montgomery.Curve 5)
      = false ∧
    ({ a := 1, b := 2, s := 0, r := 7, gx := 0, gy := 1, h := 1 } : Montgomery.Curve 5).a =
      ({ a := 1, b := 2, s := 0, r := 11, gx := 0, gy := 1, h := 1 } : Montgomery.Curve 5).a ∧
    ({ a := 1, b := 2, s := 0, r := 7, gx := 0, gy := 1, h := 1 } : Montgomery.Curve 5).b =
      ({ a := 1, b := 2, s := 0, r := 11, gx := 0, gy := 1, h := 1 } : Montgomery.Curve 5).b ∧
    ({ a := 1, b := 2, s := 0, r := 7, gx := 0, gy := 1, h := 1 } : Montgomery.Curve 5).s =
      ({ a := 1, b := 2, s := 0, r := 11, gx := 0, gy := 1, h := 1 } : Montgomery.Curve 5).s := by
  refine ⟨by decide, rfl, rfl, rfl⟩

/-- C9 amended: the derived curve equality is structural — two curve values
over the same field are equal exactly when every stored component matches:
coefficients, the Montgomery constant `s`, order, generator coordinates and
cofactor alike. -/
theorem c9_curve_equality_is_structural :
    (∀ (p : ℕ) (E1 E2 : Montgomery.Curve p),
      Montgomery.Curve.beq E1 E2 = true ↔
        (E1.a = E2.a ∧ E1.b = E2.b ∧ E1.s = E2.s ∧ E1.r = E2.r ∧
         E1.gx = E2.gx ∧ E1.gy = E2.gy ∧ E1.h = E2.h)) ∧
    (∀ (p : ℕ) (E1 E2 : Weierstrass.Curve p),
      Weierstrass.Curve.beq E1 E2 = true ↔
        (E1.a = E2.a ∧ E1.b = E2.b ∧ E1.r = E2.r ∧
         E1.gx = E2.gx ∧ E1.gy = E2.gy ∧ E1.h = E2.h)) := by
  constructor
  · intro p E1 E2
    unfold Montgomery.Curve.beq
    simp only [Bool.and_eq_true, decide_eq_true_iff]
    tauto
  · intro p E1 E2
    unfold Weierstrass.Curve.beq
    simp only [Bool.and_eq_true, decide_eq_true_iff]
    tauto

/-- C4: `Scalar::new` reduces any integer into `[0, r)` preserving its
residue class (floored reduction), and `add`/`sub`/`mul`/`neg` on
compatible scalars produce the integer operation's result reduced the same
way, keeping the modulus. -/
theorem c4_scalar_arithmetic_reduces (k : ℤ) (r : ℕ) (hr : 0 < r)
    (a b : Montgomery.Scalar) (ha : a.r = (r : ℤ)) (hb : b.r = (r : ℤ)) :
    (reducedFrom (Montgomery.Scalar.new k r).k (r : ℤ) k ∧
      (Montgomery.Scalar.new k r).r = (r : ℤ)) ∧
    (∃ c, a.add b = .ok c ∧ reducedFrom c.k (r : ℤ) (a.k + b.k) ∧ c.r = (r : ℤ)) ∧
    (∃ c, a.sub b = .ok c ∧ reducedFrom c.k (r : ℤ) (a.k - b.k) ∧ c.r = (r : ℤ)) ∧
    (∃ c, a.mul b = .ok c ∧ reducedFrom c.k (r : ℤ) (a.k * b.k) ∧ c.r = (r : ℤ)) ∧
    (reducedFrom (a.neg).k (r : ℤ) (-a.k) ∧ (a.neg).r = (r : ℤ)) := by
  have hrz : (0 : ℤ) < (r : ℤ) := by exact_mod_cast hr
  have hrr : a.r = b.r := by rw [ha, hb]
  refine ⟨⟨fmod_reducedFrom k (r : ℤ) hrz, rfl⟩, ?_, ?_, ?_, ?_⟩
  · refine ⟨a.add_mod b, ?_, ?_, ?_⟩
    · unfold Montgomery.Scalar.add
      rw [if_pos hrr]
    · show reducedFrom (Int.fmod (a.k + b.k) a.r) (r : ℤ) (a.k + b.k)
      rw [ha]; exact fmod_reducedFrom _ _ hrz
    · show a.r = (r : ℤ); exact ha
  · refine ⟨a.sub_mod b, ?_, ?_, ?_⟩
    · unfold Montgomery.Scalar.sub
      rw [if_pos hrr]
    · show reducedFrom (Int.fmod (a.k - b.k) a.r) (r : ℤ) (a.k - b.k)
      rw [ha]; exact fmod_reducedFrom _ _ hrz
    · show a.r = (r : ℤ); exact ha
  · refine ⟨a.mul_mod b, ?_, ?_, ?_⟩
    · unfold Montgomery.Scalar.mul
      rw [if_pos hrr]
    · show reducedFrom (Int.fmod (a.k * b.k) a.r) (r : ℤ) (a.k * b.k)
      rw [ha]; exact fmod_reducedFrom _ _ hrz
    · show a.r = (r : ℤ); exact ha
  · constructor
    · show reducedFrom (Int.fmod (-a.k) a.r) (r : ℤ) (-a.k)
      rw [ha]; exact fmod_reducedFrom _ _ hrz
    · show a.r = (r : ℤ); exact ha

/-- Witness for C4 at `k = -7`, `r = 5`, and the scalars `(3 mod 5)`,
`(4 mod 5)`. -/
theorem c4_scalar_arithmetic_reduces_witness :
    ((0 : ℕ) < 5 ∧ ({ k := 3, r := 5 } : Montgomery.Scalar).r = ((5 : ℕ) : ℤ) ∧
      ({ k := 4, r := 5 } : Montgomery.Scalar).r = ((5 : ℕ) : ℤ)) ∧
    ((reducedFrom (Montgomery.Scalar.new (-7) 5).k ((5 : ℕ) : ℤ) (-7) ∧
      (Montgomery.Scalar.new (-7) 5).r = ((5 : ℕ) : ℤ)) ∧
    (∃ c, Montgomery.Scalar.add { k := 3, r := 5 } { k := 4, r := 5 } = .ok c ∧
      reducedFrom c.k ((5 : ℕ) : ℤ)
        (({ k := 3, r := 5 } : Montgomery.Scalar).k +
          ({ k := 4, r := 5 } : Montgomery.Scalar).k) ∧ c.r = ((5 : ℕ) : ℤ)) ∧
    (∃ c, Montgomery.Scalar.sub { k := 3, r := 5 } { k := 4, r := 5 } = .ok c ∧
      reducedFrom c.k ((5 : ℕ) : ℤ)
        (({ k := 3, r := 5 } : Montgomery.Scalar).k -
          ({ k := 4, r := 5 } : Montgomery.Scalar).k) ∧ c.r = ((5 : ℕ) : ℤ)) ∧
    (∃ c, Montgomery.Scalar.mul { k := 3, r := 5 } { k := 4, r := 5 } = .ok c ∧
      reducedFrom c.k ((5 : ℕ) : ℤ)
        (({ k := 3, r := 5 } : Montgomery.Scalar).k *
          ({ k := 4, r := 5 } : Montgomery.Scalar).k) ∧ c.r = ((5 : ℕ) : ℤ)) ∧
    (reducedFrom (Montgomery.Scalar.neg { k := 3, r := 5 }).k ((5 : ℕ) : ℤ)
        (-({ k := 3, r := 5 } : Montgomery.Scalar).k) ∧
      (Montgomery.Scalar.neg { k := 3, r := 5 }).r = ((5 : ℕ) : ℤ))) :=
  ⟨⟨by decide, by decide, by decide⟩,
    c4_scalar_arithmetic_reduces (-7) 5 (by decide)
      { k := 3, r := 5 } { k := 4, r := 5 } (by decide) (by decide)⟩

/-- C1: decoding the single-byte buffer `[0x00]` does not return the
identity point — the source slices `buf[1..size+1]` before the tag match,
which for a length-1 buffer is an out-of-range slice, a panic.  Evaluated
here on the concrete curve `mc13` (the same happens for every curve whose
field needs at least one byte). -/
theorem c1_decode_identity_buffer_panics :
    Montgomery.Curve.decode mc13 sq13 sg13 [0] = .error .panicOutOfRange := by
  rfl

/-- C8 counterexample: on `mc13` the buffer `[0x05, 0x0D]` has a length in
`{1, size+1, 2·size+1}` and a leading byte outside `{0x00,0x02,0x03,0x04}`,
yet decode reports `InvalidCoordinate` (its `x` field equals the modulus),
not `InvalidTag`: the coordinate-range check precedes the tag check. -/
theorem c8_counterexample_coordinate_before_tag :
    Montgomery.Curve.decode mc13 sq13 sg13 [5, 13] = .error .invalidCoordinate ∧
    DecodeError.invalidCoordinate ≠ DecodeError.invalidTag :=
  ⟨by rfl, by decide⟩

/-- C8 amended: for buffers of length `size+1` or `2·size+1` whose `x`
field is below the modulus and whose leading byte is outside
`{0x00, 0x02, 0x03, 0x04}`, decode fails with `InvalidTag`. -/
theorem c8_unknown_tag_rejected (p : ℕ) (E : Montgomery.Curve p)
    (sq : ZMod p → ZMod p) (sg : ZMod p → ℕ) (buf : List ℕ)
    (hlen : buf.length = sizeBytes p + 1 ∨ buf.length = 2 * sizeBytes p + 1)
    (hx : bytesToNat ((buf.drop 1).take (sizeBytes p)) < p)
    (h0 : buf.headD 0 ≠ 0) (h2 : buf.headD 0 ≠ 2) (h3 : buf.headD 0 ≠ 3)
    (h4 : buf.headD 0 ≠ 4) :
    E.decode sq sg buf = .error .invalidTag := by
  unfold Montgomery.Curve.decode
  rw [if_neg (not_not_intro (Or.inr hlen))]
  rw [if_neg (by omega)]
  rw [if_neg (not_le.mpr hx)]
  rw [if_neg h0, if_neg h4, if_neg (by tauto)]

/-- Witness for the amended C8 at the buffer `[0x05, 0x01]` on `mc13`. -/
theorem c8_unknown_tag_rejected_witness :
    (([5, 1] : List ℕ).length = sizeBytes 13 + 1 ∧
      bytesToNat ((([5, 1] : List ℕ).drop 1).take (sizeBytes 13)) < 13 ∧
      ([5, 1] : List ℕ).headD 0 ≠ 0 ∧ ([5, 1] : List ℕ).headD 0 ≠ 2 ∧
      ([5, 1] : List ℕ).headD 0 ≠ 3 ∧ ([5, 1] : List ℕ).headD 0 ≠ 4) ∧
    Montgomery.Curve.decode mc13 sq13 sg13 [5, 1] = .error .invalidTag :=
  ⟨⟨by decide, by decide, by decide, by decide, by decide, by decide⟩,
    c8_unknown_tag_rejected 13 mc13 sq13 sg13 [5, 1] (Or.inl (by decide))
      (by decide) (by decide) (by decide) (by decide) (by decide)⟩

/-- C6: on a compressed buffer (tag `0x02`/`0x03`, length `size+1`, `x`
below the modulus) decode agrees with the specified algorithm: recompute
`y²` as `(x³ + a·x² + x)·b⁻¹`, take a square root, read the sign off
`sgn0`, negate the root when the tag's sign bit disagrees, and build the
point through the re-validating `new_point`. -/
theorem c6_compressed_decode_matches_spec (p : ℕ) (E : Montgomery.Curve p)
    (sq : ZMod p → ZMod p) (sg : ZMod p → ℕ) (buf : List ℕ)
    (hlen : buf.length = sizeBytes p + 1)
    (htag : buf.headD 0 = 2 ∨ buf.headD 0 = 3)
    (hx : bytesToNat ((buf.drop 1).take (sizeBytes p)) < p) :
    E.decode sq sg buf = Montgomery.decodeCompressedSpec E sq sg buf := by
  unfold Montgomery.Curve.decode Montgomery.decodeCompressedSpec
  rw [if_neg (not_not_intro (Or.inr (Or.inl hlen)))]
  rw [if_neg (by omega)]
  rw [if_neg (not_le.mpr hx)]
  have key2 : ∀ t : ℕ, ((2 : ℕ) ≠ t % 2 + 2) ↔ ((0 : ℕ) ≠ t % 2) := by
    intro t; omega
  have key3 : ∀ t : ℕ, ((3 : ℕ) ≠ t % 2 + 2) ↔ ((1 : ℕ) ≠ t % 2) := by
    intro t; omega
  rcases htag with h | h <;> rw [h]
  · rw [if_neg (by decide), if_neg (by decide), if_pos (Or.inl rfl)]
    rw [if_neg (by omega)]
    set x : ZMod p := ((bytesToNat ((buf.drop 1).take (sizeBytes p)) : ℕ) : ZMod p) with hxd
    simp only [Nat.and_one_is_mod, Nat.reduceMod, one_mul]
    have hyy : ((x + E.a) * x + 1) * x * E.b⁻¹ = (x ^ 3 + E.a * x ^ 2 + x) * E.b⁻¹ := by
      ring
    rw [hyy]
    rw [if_congr (key2 (sg (sq ((x ^ 3 + E.a * x ^ 2 + x) * E.b⁻¹)) >>> 1)) rfl rfl]
  · rw [if_neg (by decide), if_neg (by decide), if_pos (Or.inr rfl)]
    rw [if_neg (by omega)]
    set x : ZMod p := ((bytesToNat ((buf.drop 1).take (sizeBytes p)) : ℕ) : ZMod p) with hxd
    simp only [Nat.and_one_is_mod, Nat.reduceMod, one_mul]
    have hyy : ((x + E.a) * x + 1) * x * E.b⁻¹ = (x ^ 3 + E.a * x ^ 2 + x) * E.b⁻¹ := by
      ring
    rw [hyy]
    rw [if_congr (key3 (sg (sq ((x ^ 3 + E.a * x ^ 2 + x) * E.b⁻¹)) >>> 1)) rfl rfl]

/-- Witness for C6 at the compressed buffer `[0x02, 0x01]` on `mc13`,
with a square root function mapping `3` to `4` and `sgn0` the canonical
representative: decode recovers the on-curve point `(1, 4)`. -/
theorem c6_compressed_decode_matches_spec_witness :
    (([2, 1] : List ℕ).length = sizeBytes 13 + 1 ∧
      (([2, 1] : List ℕ).headD 0 = 2 ∨ ([2, 1] : List ℕ).headD 0 = 3) ∧
      bytesToNat ((([2, 1] : List ℕ).drop 1).take (sizeBytes 13)) < 13) ∧
    Montgomery.Curve.decode mc13 sq13 sg13 [2, 1] =
      Montgomery.decodeCompressedSpec mc13 sq13 sg13 [2, 1] :=
  ⟨⟨by decide, Or.inl (by decide), by decide⟩,
    c6_compressed_decode_matches_spec 13 mc13 sq13 sg13 [2, 1] (by decide)
      (Or.inl (by decide)) (by decide)⟩

/-- Every position of the `u32` digit list holds the corresponding base
`2 ^ 32` digit of the number. -/
theorem u32DigitsAux_getD : ∀ (fuel n j : ℕ), n ≤ fuel →
    (u32DigitsAux fuel n).getD j 0 = n / (2 ^ 32) ^ j % 2 ^ 32 := by
  intro fuel
  induction fuel with
  | zero =>
    intro n j h
    have hn : n = 0 := by omega
    subst hn
    simp [u32DigitsAux]
  | succ f ih =>
    intro n j h
    by_cases hn : n = 0
    · subst hn; simp [u32DigitsAux]
    · rw [u32DigitsAux, if_neg hn]
      cases j with
      | zero => simp
      | succ j =>
        show (u32DigitsAux f (n / 2 ^ 32)).getD j 0 = _
        have hle : n / 2 ^ 32 ≤ f := by
          have : n / 2 ^ 32 < n := Nat.div_lt_self (Nat.pos_of_ne_zero hn) (by norm_num)
          omega
        rw [ih (n / 2 ^ 32) j hle, Nat.div_div_eq_div_mul, ← pow_succ']

/-- Digit extraction for the completed digit vector. -/
theorem u32Digits_getD (n j : ℕ) :
    (u32Digits n).getD j 0 = n / (2 ^ 32) ^ j % 2 ^ 32 :=
  u32DigitsAux_getD n n j le_rfl

/-- The bit the cursor extracts from the digit vector at position `i`
is bit `i` of the underlying number. -/
theorem iterino_bit (n i : ℕ) :
    decide (((u32Digits n).getD (i / 32) 0 >>> (i % 32)) &&& 1 ≠ 0) = n.testBit i := by
  rw [u32Digits_getD]
  have h1 : n / (2 ^ 32) ^ (i / 32) % 2 ^ 32 = (n >>> (32 * (i / 32))) % 2 ^ 32 := by
    rw [Nat.shiftRight_eq_div_pow, pow_mul]
  rw [h1]
  have h2 : ∀ x : ℕ, decide ((x >>> (i % 32)) &&& 1 ≠ 0) = x.testBit (i % 32) := by
    intro x
    rw [Nat.and_one_is_mod, Nat.shiftRight_eq_div_pow, Nat.testBit_to_div_mod]
    rcases Nat.mod_two_eq_zero_or_one (x / 2 ^ (i % 32)) with h | h <;> rw [h] <;> rfl
  rw [h2, Nat.testBit_mod_two_pow, Nat.testBit_shiftRight]
  have h3 : i % 32 < 32 := Nat.mod_lt _ (by norm_num)
  simp [h3, Nat.div_add_mod]

/-- Draining a least-significant-first cursor from position `i` with `cnt`
bits left yields bits `i, i+1, …, i+cnt-1` in order. -/
theorem drain_rl (n : ℕ) : ∀ (cnt l fuel i : ℕ), i + cnt = l → cnt < fuel →
    Montgomery.Iterino.drain fuel { l := l, i := i, v := u32Digits n, is_lr := false } =
      (List.range' i cnt).map (Nat.testBit n) := by
  intro cnt
  induction cnt with
  | zero =>
    intro l fuel i h1 h2
    obtain ⟨f, rfl⟩ : ∃ f, fuel = f + 1 := ⟨fuel - 1, by omega⟩
    rw [Montgomery.Iterino.drain]
    have hnone : Montgomery.Iterino.next
        { l := l, i := i, v := u32Digits n, is_lr := false } = none := by
      unfold Montgomery.Iterino.next
      dsimp only
      rw [if_neg (by omega)]
    rw [hnone]
    simp [List.range']
  | succ c ih =>
    intro l fuel i h1 h2
    obtain ⟨f, rfl⟩ : ∃ f, fuel = f + 1 := ⟨fuel - 1, by omega⟩
    rw [Montgomery.Iterino.drain]
    have hnext : Montgomery.Iterino.next
        { l := l, i := i, v := u32Digits n, is_lr := false } =
        some (Nat.testBit n i, { l := l, i := i + 1, v := u32Digits n, is_lr := false }) := by
      unfold Montgomery.Iterino.next
      dsimp only
      rw [if_pos (by omega)]
      rw [iterino_bit]
      rfl
    rw [hnext]
    dsimp only
    rw [List.range'_succ, List.map_cons]
    rw [ih l f (i + 1) (by omega) (by omega)]

/-- Draining a most-significant-first cursor positioned at bit `cnt - 1`
(`usize`-wrapped for `cnt = 0`) yields bits `cnt-1, …, 1, 0` in order. -/
theorem drain_lr (n l : ℕ) (hl : l < USIZE) : ∀ (cnt fuel : ℕ), cnt ≤ l → cnt < fuel →
    Montgomery.Iterino.drain fuel
        { l := l, i := (cnt + (USIZE - 1)) % USIZE, v := u32Digits n, is_lr := true } =
      ((List.range cnt).reverse).map (Nat.testBit n) := by
  intro cnt
  induction cnt with
  | zero =>
    intro fuel h1 h2
    obtain ⟨f, rfl⟩ : ∃ f, fuel = f + 1 := ⟨fuel - 1, by omega⟩
    rw [Montgomery.Iterino.drain]
    have hI : (0 + (USIZE - 1)) % USIZE = USIZE - 1 := by
      rw [Nat.zero_add, Nat.mod_eq_of_lt (by unfold USIZE; omega)]
    have hnone : Montgomery.Iterino.next
        { l := l, i := (0 + (USIZE - 1)) % USIZE, v := u32Digits n, is_lr := true } = none := by
      unfold Montgomery.Iterino.next
      dsimp only
      rw [hI, if_neg (by unfold USIZE at hl ⊢; omega)]
    rw [hnone]
    simp
  | succ c ih =>
    intro fuel h1 h2
    obtain ⟨f, rfl⟩ : ∃ f, fuel = f + 1 := ⟨fuel - 1, by omega⟩
    rw [Montgomery.Iterino.drain]
    have hc : c < USIZE := by unfold USIZE at hl ⊢; omega
    have hIdx : (c + 1 + (USIZE - 1)) % USIZE = c := by
      have hstep : c + 1 + (USIZE - 1) = c + USIZE := by unfold USIZE; omega
      rw [hstep, Nat.add_mod_right, Nat.mod_eq_of_lt hc]
    have hnext : Montgomery.Iterino.next
        { l := l, i := (c + 1 + (USIZE - 1)) % USIZE, v := u32Digits n, is_lr := true } =
        some (Nat.testBit n c,
          { l := l, i := (c + (USIZE - 1)) % USIZE, v := u32Digits n, is_lr := true }) := by
      unfold Montgomery.Iterino.next
      dsimp only
      rw [hIdx, if_pos (by omega)]
      rw [iterino_bit]
      rw [Bool.cond_true]
    rw [hnext]
    dsimp only
    have hrange : ((List.range (c + 1)).reverse).map (Nat.testBit n) =
        Nat.testBit n c :: ((List.range c).reverse).map (Nat.testBit n) := by
      simp [List.range_succ]
    rw [hrange, ih f (by omega) (by omega)]

/-- The fuelled bit-length agrees with Mathlib's `Nat.size`. -/
theorem bitsLenAux_eq_size : ∀ (fuel n : ℕ), n ≤ fuel → bitsLenAux fuel n = Nat.size n := by
  intro fuel
  induction fuel with
  | zero =>
    intro n h
    have hn : n = 0 := by omega
    subst hn
    simp [bitsLenAux, Nat.size_zero]
  | succ f ih =>
    intro n h
    by_cases hn : n = 0
    · subst hn; simp [bitsLenAux, Nat.size_zero]
    · rw [bitsLenAux, if_neg hn]
      have hstep : n / 2 ≤ f := by
        have : n / 2 < n := Nat.div_lt_self (Nat.pos_of_ne_zero hn) one_lt_two
        omega
      rw [ih (n / 2) hstep]
      have h1 : n / 2 < 2 ^ Nat.size (n / 2) := Nat.lt_size_self _
      have h2 : n < 2 ^ (Nat.size (n / 2) + 1) := by
        rw [pow_succ]
        omega
      have h3 : 2 ^ Nat.size (n / 2) ≤ n := by
        rcases Nat.eq_zero_or_pos (n / 2) with h0 | hpos
        · rw [h0, Nat.size_zero, pow_zero]
          exact Nat.pos_of_ne_zero hn
        · have hs : 0 < Nat.size (n / 2) := Nat.size_pos.mpr hpos
          have h4 : 2 ^ (Nat.size (n / 2) - 1) ≤ n / 2 :=
            Nat.lt_size.mp (by omega)
          have hss : Nat.size (n / 2) - 1 + 1 = Nat.size (n / 2) := by omega
          have h5 : 2 ^ Nat.size (n / 2) = 2 * 2 ^ (Nat.size (n / 2) - 1) := by
            conv_lhs => rw [← hss]
            rw [pow_succ']
          omega
      have h6 : Nat.size n ≤ Nat.size (n / 2) + 1 := Nat.size_le.mpr h2
      have h7 : Nat.size (n / 2) < Nat.size n := Nat.lt_size.mpr h3
      omega

/-- `bitsLen` is `Nat.size`. -/
theorem bitsLen_eq_size (n : ℕ) : bitsLen n = Nat.size n :=
  bitsLenAux_eq_size n n le_rfl

/-- Folding the binary-numeral step over the bits of `n`, most significant
first, reconstructs `n` modulo `2 ^ l`. -/
theorem foldl_msb (n : ℕ) : ∀ (l acc : ℕ),
    List.foldl (fun acc b => 2 * acc + (if b then 1 else 0)) acc
        (((List.range l).reverse).map (Nat.testBit n)) = acc * 2 ^ l + n % 2 ^ l := by
  intro l
  induction l with
  | zero => intro acc; simp [Nat.mod_one]
  | succ k ih =>
    intro acc
    have hsplit : ((List.range (k + 1)).reverse).map (Nat.testBit n) =
        Nat.testBit n k :: ((List.range k).reverse).map (Nat.testBit n) := by
      simp [List.range_succ]
    rw [hsplit, List.foldl_cons, ih]
    have hb : (if Nat.testBit n k then 1 else 0) = n / 2 ^ k % 2 := by
      rw [Nat.testBit_to_div_mod]
      rcases Nat.mod_two_eq_zero_or_one (n / 2 ^ k) with h | h <;> rw [h] <;> rfl
    rw [hb]
    have hm : n % 2 ^ (k + 1) = n % 2 ^ k + 2 ^ k * (n / 2 ^ k % 2) := by
      rw [pow_succ]
      exact Nat.mod_mul
    rw [hm, pow_succ]
    ring

/-- C5: for any scalar (its stored value is non-negative, and its bit
length fits a `usize`), `iter_lr` yields exactly the bit-length many
booleans, most significant first, `iter_rl` the same bits least
significant first; reading `iter_lr`, or the reverse of `iter_rl`, as a
binary numeral reconstructs the scalar's value exactly. -/
theorem c5_bit_iterators (a : Montgomery.Scalar) (hk : 0 ≤ a.k)
    (hl : bitsLen a.k.natAbs < USIZE) :
    a.iter_lr = ((List.range (Nat.size a.k.natAbs)).reverse).map (Nat.testBit a.k.natAbs) ∧
    a.iter_rl = (List.range (Nat.size a.k.natAbs)).map (Nat.testBit a.k.natAbs) ∧
    a.iter_lr.length = Nat.size a.k.natAbs ∧
    a.iter_rl.length = Nat.size a.k.natAbs ∧
    a.iter_rl.reverse = a.iter_lr ∧
    (bitsToNat a.iter_lr : ℤ) = a.k ∧
    (bitsToNat a.iter_rl.reverse : ℤ) = a.k := by
  have hsz : bitsLen a.k.natAbs = Nat.size a.k.natAbs := bitsLen_eq_size _
  have hszu : Nat.size a.k.natAbs < USIZE := by omega
  have hlr : a.iter_lr =
      ((List.range (Nat.size a.k.natAbs)).reverse).map (Nat.testBit a.k.natAbs) := by
    simp only [Montgomery.Scalar.iter_lr]
    rw [hsz]
    exact drain_lr a.k.natAbs (Nat.size a.k.natAbs) hszu (Nat.size a.k.natAbs)
      (Nat.size a.k.natAbs + 1) le_rfl (Nat.lt_succ_self _)
  have hrl : a.iter_rl =
      (List.range (Nat.size a.k.natAbs)).map (Nat.testBit a.k.natAbs) := by
    simp only [Montgomery.Scalar.iter_rl]
    rw [hsz]
    rw [drain_rl a.k.natAbs (Nat.size a.k.natAbs) (Nat.size a.k.natAbs)
      (Nat.size a.k.natAbs + 1) 0 (Nat.zero_add _) (Nat.lt_succ_self _)]
    rw [← List.range_eq_range']
  have hfold : bitsToNat a.iter_lr = a.k.natAbs := by
    rw [hlr]
    unfold bitsToNat
    rw [foldl_msb a.k.natAbs (Nat.size a.k.natAbs) 0]
    rw [Nat.zero_mul, Nat.zero_add]
    exact Nat.mod_eq_of_lt (Nat.lt_size_self _)
  have hrev : a.iter_rl.reverse = a.iter_lr := by
    rw [hlr, hrl, List.map_reverse]
  refine ⟨hlr, hrl, ?_, ?_, hrev, ?_, ?_⟩
  · rw [hlr]; simp
  · rw [hrl]; simp
  · rw [hfold]; exact Int.natAbs_of_nonneg hk
  · rw [hrev, hfold]; exact Int.natAbs_of_nonneg hk

/-- Witness for C5 at the scalar `(6 mod 7)`, whose bit sequence
MSB-first is `[true, true, false]`. -/
theorem c5_bit_iterators_witness :
    (0 ≤ ({ k := 6, r := 7 } : Montgomery.Scalar).k ∧
      bitsLen ({ k := 6, r := 7 } : Montgomery.Scalar).k.natAbs < USIZE) ∧
    (Montgomery.Scalar.iter_lr { k := 6, r := 7 } =
        ((List.range (Nat.size ({ k := 6, r := 7 } : Montgomery.Scalar).k.natAbs)).reverse).map
          (Nat.testBit ({ k := 6, r := 7 } : Montgomery.Scalar).k.natAbs) ∧
      Montgomery.Scalar.iter_rl { k := 6, r := 7 } =
        (List.range (Nat.size ({ k := 6, r := 7 } : Montgomery.Scalar).k.natAbs)).map
          (Nat.testBit ({ k := 6, r := 7 } : Montgomery.Scalar).k.natAbs) ∧
      (Montgomery.Scalar.iter_lr { k := 6, r := 7 }).length =
        Nat.size ({ k := 6, r := 7 } : Montgomery.Scalar).k.natAbs ∧
      (Montgomery.Scalar.iter_rl { k := 6, r := 7 }).length =
        Nat.size ({ k := 6, r := 7 } : Montgomery.Scalar).k.natAbs ∧
      (Montgomery.Scalar.iter_rl { k := 6, r := 7 }).reverse =
        Montgomery.Scalar.iter_lr { k := 6, r := 7 } ∧
      (bitsToNat (Montgomery.Scalar.iter_lr { k := 6, r := 7 }) : ℤ) =
        ({ k := 6, r := 7 } : Montgomery.Scalar).k ∧
      (bitsToNat (Montgomery.Scalar.iter_rl { k := 6, r := 7 }).reverse : ℤ) =
        ({ k := 6, r := 7 } : Montgomery.Scalar).k) :=
  ⟨⟨by decide, by decide⟩,
    c5_bit_iterators { k := 6, r := 7 } (by decide) (by decide)⟩
